import Mathlib

/-!
Shallow embedding of `src/revised_process.py` (the straug batch augmentation
driver) and proofs settling the frozen claims about it.

The repository's single script `revised_process.py` does the following
(line references are to that file):

* seeds the process-wide numpy random generator once (`np.random.seed`, l.39);
* creates the result directory if missing (l.42-44);
* creates `process_log.json` containing `[]` if it does not exist (l.47-51);
* lists the input directory and keeps names ending in `".png"` (l.54);
* holds a fixed catalog `augmentation_functions` of 27 `(class, name)` pairs
  (l.58-66);
* for each png file: opens and resizes it, then for each catalog entry and
  each magnitude in `range(1, max_mag + 1)` calls
  `apply_augmentation(img, func, mag)` — which constructs a fresh operator
  instance via `func()` and applies it — saves the result under
  `f"\x7bbase\x7d_\x7bfunc_name\x7d_\x7bmag\x7d.png"` and appends a success record;
  any exception for that image aborts the rest of its work units and appends
  one failure record (l.69-98);
* finally dumps the accumulated `log_data` to `process_log.json` (l.100-102).

External collaborators (PIL open/resize, the straug operators, file writes)
are modelled as an explicit environment `Env`: each is a function that may
fail (`Except`), with the process-wide random state threaded explicitly
through operator applications.  Observable file-system behaviour is recorded
as an explicit `Event` trace.
-/

/-- Log records, mirroring the two shapes of `log_entry` in the script:
success objects `\x7bfile, function, magnitude, output_file\x7d` (l.86-91) and
failure objects `\x7bfile, error\x7d` (l.94-97). -/
inductive LogRecord where
  | success (file fn : String) (magnitude : Int) (output_file : String)
  | failure (file error : String)
deriving DecidableEq, Repr

/-- The `file` key, present in both record shapes. -/
def LogRecord.file : LogRecord → String
  | .success f _ _ _ => f
  | .failure f _ => f

/-- Whether a record is a success record. -/
def LogRecord.isSuccessRec : LogRecord → Bool
  | .success _ _ _ _ => true
  | .failure _ _ => false

/-- Whether a record is a failure record. -/
def LogRecord.isFailureRec : LogRecord → Bool
  | .success _ _ _ _ => false
  | .failure _ _ => true

/-- Observable actions of the driver, in program order.  `constructOp`
is the `func()` call inside `apply_augmentation` (l.25), `invokeOp` the
application of the freshly constructed operator to the image. -/
inductive Event where
  | seedRng (seed : Int)
  | mkResultDir
  | createEmptyLog
  | openImage (file : String)
  | constructOp (op : String)
  | invokeOp (op : String) (mag : Int)
  | saveArtifact (name : String)
  | dumpLog (records : List LogRecord)
deriving DecidableEq, Repr

/-- Whether an event is the seeding of the random generator. -/
def Event.isSeed : Event → Bool
  | .seedRng _ => true
  | _ => false

/-- Whether an event is the final dump of the run log. -/
def Event.isDump : Event → Bool
  | .dumpLog _ => true
  | _ => false

/-- Whether an event is the initial creation of an empty `process_log.json`. -/
def Event.isCreateLog : Event → Bool
  | .createEmptyLog => true
  | _ => false

/-- Whether an event writes to the `process_log.json` path (initial creation
or final dump). -/
def Event.isLogWrite : Event → Bool
  | .createEmptyLog => true
  | .dumpLog _ => true
  | _ => false

/-- Whether an event belongs to per-image processing (open, construct,
invoke, save). -/
def Event.isImageEvent : Event → Bool
  | .openImage _ => true
  | .constructOp _ => true
  | .invokeOp _ _ => true
  | .saveArtifact _ => true
  | _ => false

/-- Whether an event constructs an instance of operator `o`. -/
def Event.isConstructOf (o : String) : Event → Bool
  | .constructOp op => op == o
  | _ => false

/-- Whether an event invokes operator `o`. -/
def Event.isInvokeOf (o : String) : Event → Bool
  | .invokeOp op _ => op == o
  | _ => false

/-- Decimal digit characters, as Python's `str` renders them. -/
def digitChar (d : Nat) : Char :=
  if d = 0 then '0' else if d = 1 then '1' else if d = 2 then '2'
  else if d = 3 then '3' else if d = 4 then '4' else if d = 5 then '5'
  else if d = 6 then '6' else if d = 7 then '7' else if d = 8 then '8'
  else '9'

/-- Numeric value of a decimal digit character. -/
def digitVal (c : Char) : Nat := c.toNat - 48

/-- Fuelled most-significant-first decimal rendering of a natural number. -/
def natDecimalAux : Nat → Nat → List Char
  | 0, _ => []
  | fuel + 1, n =>
    if n < 10 then [digitChar n]
    else natDecimalAux fuel (n / 10) ++ [digitChar (n % 10)]

/-- Decimal rendering of a natural number, as Python's `str` does. -/
def natDecimal (n : Nat) : List Char := natDecimalAux (n + 1) n

/-- Decimal rendering of an integer, as Python's `str(int)` / f-string
interpolation renders it (l.84 of the script formats `mag`, an `int`). -/
def intDecimal (m : Int) : List Char :=
  if m < 0 then '-' :: natDecimal (-m).toNat else natDecimal m.toNat

/-- Value of a most-significant-first digit string. -/
def decVal (cs : List Char) : Nat := cs.foldl (fun a c => 10 * a + digitVal c) 0

/-- Model of `os.path.splitext(file_name)[0]` (l.83) for a bare file name
(no path separators): split at the last dot, unless every character before
that dot is itself a dot (CPython's leading-dot rule), in which case the
whole name is the base. -/
def splitextBaseChars (cs : List Char) : List Char :=
  if cs.contains '.' then
    let before := ((cs.reverse.dropWhile (fun c => c != '.')).drop 1).reverse
    if before.all (fun c => c == '.') then cs else before
  else cs

/-- String-level wrapper of `splitextBaseChars`. -/
def splitextBase (s : String) : String := ⟨splitextBaseChars s.toList⟩

/-- Split a character list at its last underscore: the pair of what comes
before and what comes after.  Used only in proofs, to decode output file
names. -/
def chopLastU (cs : List Char) : List Char × List Char :=
  (((cs.reverse.dropWhile (fun c => c != '_')).drop 1).reverse,
   (cs.reverse.takeWhile (fun c => c != '_')).reverse)

/-- Model of l.84: `output_file_name = f"\x7bbase_name\x7d_\x7bfunc_name\x7d_\x7bmag\x7d.png"`. -/
def outputFileName (file op : String) (mag : Int) : String :=
  ⟨splitextBaseChars file.toList ++ '_' :: (op.toList ++ '_' :: (intDecimal mag ++ ".png".toList))⟩

/-- Model of `f.endswith('.png')` (l.54). -/
def endsWithPng (s : String) : Bool := List.isSuffixOf ".png".toList s.toList

/-- Model of l.54: the listing filtered to names ending in `".png"`. -/
def pngFiles (listing : List String) : List String := listing.filter endsWithPng

/-- The fixed operator catalog `augmentation_functions` (l.58-66), by
operator name, in source declaration order. -/
def augmentation_functions : List String :=
  ["curve", "distort", "stretch",
   "perspective", "rotate", "shrink",
   "fog", "snow", "frost", "rain", "shadow",
   "contrast", "brightness", "jpegcompression", "pixelate",
   "posterize", "solarize", "invert", "equalize", "autocontrast",
   "sharpness", "color",
   "gaussianblur", "defocusblur", "motionblur", "glassblur", "zoomblur"]

/-- Model of `range(1, max_mag + 1)` (l.76): the magnitudes 1..maxMag
ascending, empty when `maxMag < 1`. -/
def magnitudes (maxMag : Int) : List Int :=
  (List.range maxMag.toNat).map (fun i => ((i + 1 : Nat) : Int))

/-- The (operator, magnitude) pairs attempted for one opened image, in the
nesting order of the two inner loops (l.75-76): operators in catalog order,
magnitudes ascending inside each operator. -/
def unitsFor (catalog : List String) (maxMag : Int) : List (String × Int) :=
  (catalog.map (fun op => (magnitudes maxMag).map (fun m => (op, m)))).flatten

/-- All work units of a run, in executed nesting order: images outermost,
then operators, then magnitudes. -/
def allUnits (images catalog : List String) (maxMag : Int) :
    List (String × String × Int) :=
  (images.map (fun f => (unitsFor catalog maxMag).map (fun u => (f, u.1, u.2)))).flatten

/-- The success record the script appends for a completed work unit of
image `f` (l.86-92). -/
def succFor (f : String) (u : String × Int) : LogRecord :=
  LogRecord.success f u.1 u.2 (outputFileName f u.1 u.2)

/-- External collaborators of the driver, as fallible functions.  `Img` is
the abstract type of decoded images, `Rng` the abstract state of the
process-wide random generator.  `applyAug o img mag rng` performs
`apply_augmentation` for operator `o` — construction of a fresh instance
followed by its application — returning the advanced random state and the
result or the exception message; `openResize` is `Image.open(...).resize(...)`
(l.74), `save` is `augmented_img.save(output_path)` (l.87). -/
structure Env (Img Rng : Type) where
  seedRng : Int → Rng
  openResize : String → Except String Img
  applyAug : String → Img → Int → Rng → Rng × Except String Img
  save : String → Img → Except String Unit

/-- Outcome of running the (operator × magnitude) work units of one opened
image until the first exception: final random state, appended success
records, produced artifacts (name, content), emitted events, and the
exception message if one occurred. -/
structure UnitsOut (Img Rng : Type) where
  rng : Rng
  recs : List LogRecord
  arts : List (String × Img)
  evs : List Event
  err : Option String

/-- The two inner loops of l.75-92 for one opened image: run the work units
in order; a failing unit stops the image immediately and surfaces its error. -/
def processUnits {Img Rng : Type} (env : Env Img Rng) (file : String) (img : Img) :
    List (String × Int) → Rng → UnitsOut Img Rng
  | [], rng => ⟨rng, [], [], [], none⟩
  | (op, mag) :: rest, rng =>
    match env.applyAug op img mag rng with
    | (rng2, Except.error e) =>
      ⟨rng2, [], [], [Event.constructOp op, Event.invokeOp op mag], some e⟩
    | (rng2, Except.ok aimg) =>
      match env.save (outputFileName file op mag) aimg with
      | Except.error e =>
        ⟨rng2, [], [], [Event.constructOp op, Event.invokeOp op mag], some e⟩
      | Except.ok _ =>
        let o := processUnits env file img rest rng2
        ⟨o.rng,
         LogRecord.success file op mag (outputFileName file op mag) :: o.recs,
         (outputFileName file op mag, aimg) :: o.arts,
         Event.constructOp op :: Event.invokeOp op mag ::
           Event.saveArtifact (outputFileName file op mag) :: o.evs,
         o.err⟩

/-- Outcome of processing one source image. -/
structure ImageOut (Img Rng : Type) where
  rng : Rng
  recs : List LogRecord
  arts : List (String × Img)
  evs : List Event

/-- The per-image `try`/`except` body of l.72-98: open and resize the image;
on success run all its work units; if anything failed, append exactly one
failure record after the already-appended success records. -/
def processImage {Img Rng : Type} (env : Env Img Rng) (catalog : List String)
    (maxMag : Int) (file : String) (rng : Rng) : ImageOut Img Rng :=
  match env.openResize file with
  | Except.error e => ⟨rng, [LogRecord.failure file e], [], [Event.openImage file]⟩
  | Except.ok img =>
    let o := processUnits env file img (unitsFor catalog maxMag) rng
    match o.err with
    | none => ⟨o.rng, o.recs, o.arts, Event.openImage file :: o.evs⟩
    | some e =>
      ⟨o.rng, o.recs ++ [LogRecord.failure file e], o.arts,
       Event.openImage file :: o.evs⟩

/-- Accumulated outcome of a run. -/
structure RunOut (Img Rng : Type) where
  rng : Rng
  log : List LogRecord
  arts : List (String × Img)
  events : List Event

/-- The outer loop of l.69-98: process the images in discovered order,
threading the random state; a failed image never stops the batch. -/
def runImages {Img Rng : Type} (env : Env Img Rng) (catalog : List String)
    (maxMag : Int) : List String → Rng → RunOut Img Rng
  | [], rng => ⟨rng, [], [], []⟩
  | f :: fs, rng =>
    let o := processImage env catalog maxMag f rng
    let rest := runImages env catalog maxMag fs o.rng
    ⟨rest.rng, o.recs ++ rest.log, o.arts ++ rest.arts, o.evs ++ rest.events⟩

/-- The whole of `main` (l.28-106): seed once, create the result directory
and the empty log file when missing, filter the listing to png files,
process every image with the fixed built-in catalog, and dump the complete
accumulated log exactly once at the end. -/
def run {Img Rng : Type} (env : Env Img Rng) (seed : Int)
    (resultDirExists logFileExists : Bool) (listing : List String)
    (maxMag : Int) : RunOut Img Rng :=
  let body := runImages env augmentation_functions maxMag (pngFiles listing) (env.seedRng seed)
  ⟨body.rng, body.log, body.arts,
   [Event.seedRng seed]
     ++ (if resultDirExists then [] else [Event.mkResultDir])
     ++ (if logFileExists then [] else [Event.createEmptyLog])
     ++ body.events ++ [Event.dumpLog body.log]⟩

/-- Projection of a success record to its work-unit key. -/
def successKey : LogRecord → Option (String × String × Int)
  | .success f fn m _ => some (f, fn, m)
  | .failure _ _ => none

/-- Shape of the slice of the run log contributed by one source image `f`:
success records for a prefix of the image's work units, in nesting order,
followed by at most one failure record. -/
def blockSpec (catalog : List String) (maxMag : Int) (f : String)
    (b : List LogRecord) : Prop :=
  ∃ k tail, b = ((unitsFor catalog maxMag).take k).map (succFor f) ++ tail ∧
    (tail = [] ∨ ∃ e, tail = [LogRecord.failure f e])

/-- The exception, if any, raised while processing image `f`: either the
open/resize failure (l.74) or the first failure among its work units
(operator call l.78 or save l.87). -/
def imageErr {Img Rng : Type} (env : Env Img Rng) (cat : List String) (mm : Int)
    (f : String) (rng : Rng) : Option String :=
  match env.openResize f with
  | Except.error e => some e
  | Except.ok img => (processUnits env f img (unitsFor cat mm) rng).err

/-- A concrete all-succeeding environment over trivial images, with the
random state modelled as a counter: used to evaluate the driver on concrete
inputs. -/
def env0 : Env Unit Int :=
  ⟨fun s => s, fun _ => Except.ok (), fun _ _ _ r => (r + 1, Except.ok ()), fun _ _ => Except.ok ()⟩

example : outputFileName "a.png" "curve" 1 = "a_curve_1.png" := by decide
example : outputFileName ".png" "curve" 1 = ".png_curve_1.png" := by decide
example : outputFileName ".png.png" "curve" 1 = ".png_curve_1.png" := by decide
example : (run env0 0 true true ["a.png"] 1).log.length = 27 := by decide

/-! ## Decimal rendering lemmas -/

lemma digitChar_mem_digits (d : Nat) :
    digitChar d ∈ ['0', '1', '2', '3', '4', '5', '6', '7', '8', '9'] := by
  unfold digitChar
  repeat' split
  all_goals decide

lemma digitVal_digitChar {d : Nat} (h : d < 10) : digitVal (digitChar d) = d := by
  interval_cases d <;> rfl

lemma natDecimalAux_mem_digits :
    ∀ fuel n, ∀ c ∈ natDecimalAux fuel n, c ∈ ['0', '1', '2', '3', '4', '5', '6', '7', '8', '9'] := by
  intro fuel
  induction fuel with
  | zero => intro n c hc; simp [natDecimalAux] at hc
  | succ fuel ih =>
    intro n c hc
    unfold natDecimalAux at hc
    split at hc
    · simp at hc
      subst hc
      exact digitChar_mem_digits n
    · rcases List.mem_append.1 hc with h | h
      · exact ih (n / 10) c h
      · simp at h
        subst h
        exact digitChar_mem_digits _

lemma natDecimal_ne_underscore {n : Nat} {c : Char} (hc : c ∈ natDecimal n) : c ≠ '_' := by
  have := natDecimalAux_mem_digits (n + 1) n c hc
  fin_cases this <;> decide

lemma decVal_append_digit (cs : List Char) (c : Char) :
    decVal (cs ++ [c]) = 10 * decVal cs + digitVal c := by
  simp [decVal, List.foldl_append]

lemma decVal_natDecimalAux :
    ∀ fuel n, n < fuel → decVal (natDecimalAux fuel n) = n := by
  intro fuel
  induction fuel with
  | zero => intro n h; omega
  | succ fuel ih =>
    intro n h
    unfold natDecimalAux
    split
    · rename_i h10
      simp [decVal, digitVal_digitChar h10]
    · rename_i h10
      rw [decVal_append_digit, ih (n / 10) (by omega), digitVal_digitChar (by omega)]
      omega

lemma natDecimal_inj {m n : Nat} (h : natDecimal m = natDecimal n) : m = n := by
  have hm := decVal_natDecimalAux (m + 1) m (by omega)
  have hn := decVal_natDecimalAux (n + 1) n (by omega)
  unfold natDecimal at h
  rw [← hm, ← hn, h]

lemma intDecimal_pos_eq {m : Int} (h : 1 ≤ m) : intDecimal m = natDecimal m.toNat := by
  unfold intDecimal
  rw [if_neg (by omega)]

lemma intDecimal_pos_ne_underscore {m : Int} (hm : 1 ≤ m) {c : Char}
    (hc : c ∈ intDecimal m) : c ≠ '_' := by
  rw [intDecimal_pos_eq hm] at hc
  exact natDecimal_ne_underscore hc

lemma intDecimal_inj_pos {m n : Int} (hm : 1 ≤ m) (hn : 1 ≤ n)
    (h : intDecimal m = intDecimal n) : m = n := by
  rw [intDecimal_pos_eq hm, intDecimal_pos_eq hn] at h
  have := natDecimal_inj h
  omega

/-! ## Decoding output file names at the last underscore -/

lemma takeWhile_append_mid (u v : List Char) (hu : ∀ c ∈ u, c ≠ '_') :
    (u ++ '_' :: v).takeWhile (fun c => c != '_') = u := by
  induction u with
  | nil => simp
  | cons a u ih =>
    have ha : a ≠ '_' := hu a (by simp)
    simp only [List.cons_append, List.takeWhile_cons]
    rw [if_pos (by simpa using ha), ih (fun c hc => hu c (by simp [hc]))]

lemma dropWhile_append_mid (u v : List Char) (hu : ∀ c ∈ u, c ≠ '_') :
    (u ++ '_' :: v).dropWhile (fun c => c != '_') = '_' :: v := by
  induction u with
  | nil => simp
  | cons a u ih =>
    have ha : a ≠ '_' := hu a (by simp)
    simp only [List.cons_append, List.dropWhile_cons]
    rw [if_pos (by simpa using ha)]
    exact ih (fun c hc => hu c (by simp [hc]))

lemma chopLastU_spec (a b : List Char) (hb : ∀ c ∈ b, c ≠ '_') :
    chopLastU (a ++ '_' :: b) = (a, b) := by
  have hbrev : ∀ c ∈ b.reverse, c ≠ '_' := fun c hc => hb c (List.mem_reverse.1 hc)
  have hrev : (a ++ '_' :: b).reverse = b.reverse ++ '_' :: a.reverse := by
    simp
  unfold chopLastU
  rw [hrev, takeWhile_append_mid _ _ hbrev, dropWhile_append_mid _ _ hbrev]
  simp

lemma underscore_encode_inj {b1 b2 o1 o2 m1 m2 : List Char}
    (ho1 : ∀ c ∈ o1, c ≠ '_') (ho2 : ∀ c ∈ o2, c ≠ '_')
    (hm1 : ∀ c ∈ m1, c ≠ '_') (hm2 : ∀ c ∈ m2, c ≠ '_')
    (h : b1 ++ '_' :: (o1 ++ '_' :: m1) = b2 ++ '_' :: (o2 ++ '_' :: m2)) :
    b1 = b2 ∧ o1 = o2 ∧ m1 = m2 := by
  have h1 : (b1 ++ '_' :: o1) ++ '_' :: m1 = (b2 ++ '_' :: o2) ++ '_' :: m2 := by
    simpa [List.append_assoc] using h
  have h2 := congrArg chopLastU h1
  rw [chopLastU_spec _ _ hm1, chopLastU_spec _ _ hm2] at h2
  have h3 : b1 ++ '_' :: o1 = b2 ++ '_' :: o2 := congrArg Prod.fst h2
  have hmm : m1 = m2 := congrArg Prod.snd h2
  have h4 := congrArg chopLastU h3
  rw [chopLastU_spec _ _ ho1, chopLastU_spec _ _ ho2] at h4
  exact ⟨congrArg Prod.fst h4, congrArg Prod.snd h4, hmm⟩

/-! ## Output file name decoding -/

lemma augmentation_functions_no_underscore :
    ∀ o ∈ augmentation_functions, ∀ c ∈ o.toList, c ≠ '_' := by decide

lemma png_suffix_no_underscore : ∀ c ∈ ".png".toList, c ≠ '_' := by decide

lemma outputFileName_inj {f1 f2 o1 o2 : String} {m1 m2 : Int}
    (ho1 : ∀ c ∈ o1.toList, c ≠ '_') (ho2 : ∀ c ∈ o2.toList, c ≠ '_')
    (hm1 : 1 ≤ m1) (hm2 : 1 ≤ m2)
    (h : outputFileName f1 o1 m1 = outputFileName f2 o2 m2) :
    splitextBase f1 = splitextBase f2 ∧ o1 = o2 ∧ m1 = m2 := by
  have hd : splitextBaseChars f1.toList ++ '_' :: (o1.toList ++ '_' :: (intDecimal m1 ++ ".png".toList))
      = splitextBaseChars f2.toList ++ '_' :: (o2.toList ++ '_' :: (intDecimal m2 ++ ".png".toList)) :=
    congrArg String.data h
  have hm1' : ∀ c ∈ intDecimal m1 ++ ".png".toList, c ≠ '_' := by
    intro c hc
    rcases List.mem_append.1 hc with h' | h'
    · exact intDecimal_pos_ne_underscore hm1 h'
    · exact png_suffix_no_underscore c h'
  have hm2' : ∀ c ∈ intDecimal m2 ++ ".png".toList, c ≠ '_' := by
    intro c hc
    rcases List.mem_append.1 hc with h' | h'
    · exact intDecimal_pos_ne_underscore hm2 h'
    · exact png_suffix_no_underscore c h'
  obtain ⟨hb, ho, hm⟩ := underscore_encode_inj ho1 ho2 hm1' hm2' hd
  refine ⟨String.ext (by simpa [splitextBase] using hb), String.ext ho,
    intDecimal_inj_pos hm1 hm2 (List.append_cancel_right hm)⟩

/-! ## Structure of the per-image record blocks -/

lemma processUnits_recs_spec {Img Rng : Type} (env : Env Img Rng) (f : String) (img : Img) :
    ∀ (units : List (String × Int)) (rng : Rng),
      ∃ k, k ≤ units.length ∧
        (processUnits env f img units rng).recs = (units.take k).map (succFor f) ∧
        ((processUnits env f img units rng).err = none → k = units.length) := by
  intro units
  induction units with
  | nil =>
    intro rng
    exact ⟨0, by simp [processUnits]⟩
  | cons u rest ih =>
    intro rng
    obtain ⟨op, mag⟩ := u
    rcases happ : env.applyAug op img mag rng with ⟨rng2, res⟩
    cases res with
    | error e =>
      refine ⟨0, by simp, ?_, ?_⟩ <;> simp [processUnits, happ]
    | ok aimg =>
      cases hsave : env.save (outputFileName f op mag) aimg with
      | error e =>
        refine ⟨0, by simp, ?_, ?_⟩ <;> simp [processUnits, happ, hsave]
      | ok u' =>
        obtain ⟨k, hk, hrecs, herr⟩ := ih rng2
        refine ⟨k + 1, by simpa using hk, ?_, ?_⟩
        · simp [processUnits, happ, hsave, hrecs, succFor]
        · intro hnone
          have h0 : (processUnits env f img rest rng2).err = none := by
            simpa [processUnits, happ, hsave] using hnone
          simp [herr h0]

lemma blockSpec_file {cat : List String} {mm : Int} {f : String} {b : List LogRecord}
    (h : blockSpec cat mm f b) : ∀ r ∈ b, LogRecord.file r = f := by
  obtain ⟨k, tail, rfl, htail⟩ := h
  intro r hr
  rcases List.mem_append.1 hr with h' | h'
  · obtain ⟨u, _, rfl⟩ := List.mem_map.1 h'
    rfl
  · rcases htail with rfl | ⟨e, rfl⟩
    · simp at h'
    · simp at h'
      subst h'
      rfl

lemma blockSpec_fail_count {cat : List String} {mm : Int} {f : String} {b : List LogRecord}
    (h : blockSpec cat mm f b) : (b.filter LogRecord.isFailureRec).length ≤ 1 := by
  obtain ⟨k, tail, rfl, htail⟩ := h
  rw [List.filter_append]
  have hsucc : (((unitsFor cat mm).take k).map (succFor f)).filter LogRecord.isFailureRec = [] := by
    rw [List.filter_map]
    have : ((unitsFor cat mm).take k).filter (LogRecord.isFailureRec ∘ succFor f) = [] := by
      apply List.filter_eq_nil_iff.2
      intro u _
      simp [succFor, LogRecord.isFailureRec]
    rw [this]
    rfl
  rw [hsucc]
  rcases htail with rfl | ⟨e, rfl⟩ <;> simp [LogRecord.isFailureRec]

lemma processImage_blockSpec {Img Rng : Type} (env : Env Img Rng) (cat : List String)
    (mm : Int) (f : String) (rng : Rng) :
    blockSpec cat mm f (processImage env cat mm f rng).recs := by
  cases hopen : env.openResize f with
  | error e =>
    refine ⟨0, [LogRecord.failure f e], ?_, Or.inr ⟨e, rfl⟩⟩
    simp [processImage, hopen]
  | ok img =>
    obtain ⟨k, hk, hrecs, herr⟩ := processUnits_recs_spec env f img (unitsFor cat mm) rng
    cases herr2 : (processUnits env f img (unitsFor cat mm) rng).err with
    | none =>
      refine ⟨k, [], ?_, Or.inl rfl⟩
      simp [processImage, hopen, herr2, hrecs]
    | some e =>
      refine ⟨k, [LogRecord.failure f e], ?_, Or.inr ⟨e, rfl⟩⟩
      simp [processImage, hopen, herr2, hrecs]

lemma processImage_files {Img Rng : Type} (env : Env Img Rng) (cat : List String)
    (mm : Int) (f : String) (rng : Rng) :
    ∀ r ∈ (processImage env cat mm f rng).recs, LogRecord.file r = f :=
  blockSpec_file (processImage_blockSpec env cat mm f rng)

lemma magnitudes_length (mm : Int) : (magnitudes mm).length = mm.toNat := by
  rw [magnitudes, List.length_map, List.length_range]

lemma magnitudes_ne_nil {mm : Int} (hm : 1 ≤ mm) : magnitudes mm ≠ [] := by
  have : (magnitudes mm).length = mm.toNat := magnitudes_length mm
  intro hnil
  rw [hnil] at this
  simp at this
  omega

lemma unitsFor_ne_nil {cat : List String} {mm : Int} (hc : cat ≠ []) (hm : 1 ≤ mm) :
    unitsFor cat mm ≠ [] := by
  obtain ⟨c, cs, rfl⟩ := List.exists_cons_of_ne_nil hc
  simp only [unitsFor, List.map_cons, List.flatten_cons]
  intro hnil
  rcases List.append_eq_nil.1 hnil with ⟨h1, _⟩
  exact magnitudes_ne_nil hm (List.map_eq_nil_iff.1 h1)

lemma processImage_recs_ne_nil {Img Rng : Type} (env : Env Img Rng) {cat : List String}
    {mm : Int} (hc : cat ≠ []) (hm : 1 ≤ mm) (f : String) (rng : Rng) :
    (processImage env cat mm f rng).recs ≠ [] := by
  cases hopen : env.openResize f with
  | error e => simp [processImage, hopen]
  | ok img =>
    obtain ⟨k, hk, hrecs, herr⟩ := processUnits_recs_spec env f img (unitsFor cat mm) rng
    cases herr2 : (processUnits env f img (unitsFor cat mm) rng).err with
    | none =>
      have hkfull := herr herr2
      subst hkfull
      simp only [processImage, hopen, herr2, hrecs, List.take_length]
      intro hnil
      exact unitsFor_ne_nil hc hm (List.map_eq_nil_iff.1 hnil)
    | some e => simp [processImage, hopen, herr2]

/-! ## Event-trace lemmas -/

lemma processUnits_evs_image {Img Rng : Type} (env : Env Img Rng) (f : String) (img : Img) :
    ∀ (units : List (String × Int)) (rng : Rng),
      ∀ e ∈ (processUnits env f img units rng).evs, e.isImageEvent = true := by
  intro units
  induction units with
  | nil => intro rng e he; simp [processUnits] at he
  | cons u rest ih =>
    intro rng e he
    obtain ⟨op, mag⟩ := u
    rcases happ : env.applyAug op img mag rng with ⟨rng2, res⟩
    cases res with
    | error er =>
      simp [processUnits, happ] at he
      rcases he with rfl | rfl <;> rfl
    | ok aimg =>
      cases hsave : env.save (outputFileName f op mag) aimg with
      | error er =>
        simp [processUnits, happ, hsave] at he
        rcases he with rfl | rfl <;> rfl
      | ok u' =>
        simp [processUnits, happ, hsave] at he
        rcases he with rfl | rfl | rfl | hmem
        · rfl
        · rfl
        · rfl
        · exact ih rng2 e hmem

lemma processImage_evs_image {Img Rng : Type} (env : Env Img Rng) (cat : List String)
    (mm : Int) (f : String) (rng : Rng) :
    ∀ e ∈ (processImage env cat mm f rng).evs, e.isImageEvent = true := by
  intro e he
  cases hopen : env.openResize f with
  | error er =>
    simp [processImage, hopen] at he
    subst he
    rfl
  | ok img =>
    cases herr : (processUnits env f img (unitsFor cat mm) rng).err with
    | none =>
      simp [processImage, hopen, herr] at he
      rcases he with rfl | hmem
      · rfl
      · exact processUnits_evs_image env f img (unitsFor cat mm) rng e hmem
    | some er =>
      simp [processImage, hopen, herr] at he
      rcases he with rfl | hmem
      · rfl
      · exact processUnits_evs_image env f img (unitsFor cat mm) rng e hmem

lemma runImages_evs_image {Img Rng : Type} (env : Env Img Rng) (cat : List String) (mm : Int) :
    ∀ (images : List String) (rng : Rng),
      ∀ e ∈ (runImages env cat mm images rng).events, e.isImageEvent = true := by
  intro images
  induction images with
  | nil => intro rng e he; simp [runImages] at he
  | cons g gs ih =>
    intro rng e he
    simp only [runImages] at he
    rcases List.mem_append.1 he with h | h
    · exact processImage_evs_image env cat mm g rng e h
    · exact ih _ e h

lemma processUnits_construct_invoke {Img Rng : Type} (env : Env Img Rng) (f : String)
    (img : Img) (o : String) :
    ∀ (units : List (String × Int)) (rng : Rng),
      ((processUnits env f img units rng).evs.filter (Event.isConstructOf o)).length =
      ((processUnits env f img units rng).evs.filter (Event.isInvokeOf o)).length := by
  intro units
  induction units with
  | nil => intro rng; simp [processUnits]
  | cons u rest ih =>
    intro rng
    obtain ⟨op, mag⟩ := u
    rcases happ : env.applyAug op img mag rng with ⟨rng2, res⟩
    cases res with
    | error er =>
      cases hop : op == o <;>
        simp [processUnits, happ, Event.isConstructOf, Event.isInvokeOf, hop]
    | ok aimg =>
      cases hsave : env.save (outputFileName f op mag) aimg with
      | error er =>
        cases hop : op == o <;>
          simp [processUnits, happ, hsave, Event.isConstructOf, Event.isInvokeOf, hop]
      | ok u' =>
        cases hop : op == o <;>
          simp [processUnits, happ, hsave, Event.isConstructOf, Event.isInvokeOf, hop, ih rng2]

lemma processImage_construct_invoke {Img Rng : Type} (env : Env Img Rng) (cat : List String)
    (mm : Int) (f : String) (rng : Rng) (o : String) :
    ((processImage env cat mm f rng).evs.filter (Event.isConstructOf o)).length =
    ((processImage env cat mm f rng).evs.filter (Event.isInvokeOf o)).length := by
  cases hopen : env.openResize f with
  | error er => simp [processImage, hopen, Event.isConstructOf, Event.isInvokeOf]
  | ok img =>
    cases herr : (processUnits env f img (unitsFor cat mm) rng).err with
    | none =>
      simp [processImage, hopen, herr, Event.isConstructOf, Event.isInvokeOf,
        processUnits_construct_invoke env f img o (unitsFor cat mm) rng]
    | some er =>
      simp [processImage, hopen, herr, Event.isConstructOf, Event.isInvokeOf,
        processUnits_construct_invoke env f img o (unitsFor cat mm) rng]

lemma runImages_construct_invoke {Img Rng : Type} (env : Env Img Rng) (cat : List String)
    (mm : Int) (o : String) :
    ∀ (images : List String) (rng : Rng),
      ((runImages env cat mm images rng).events.filter (Event.isConstructOf o)).length =
      ((runImages env cat mm images rng).events.filter (Event.isInvokeOf o)).length := by
  intro images
  induction images with
  | nil => intro rng; simp [runImages]
  | cons g gs ih =>
    intro rng
    simp only [runImages, List.filter_append, List.length_append]
    rw [processImage_construct_invoke env cat mm g rng o, ih]

/-! ## Run-level block decomposition -/

lemma runImages_blocks {Img Rng : Type} (env : Env Img Rng) (cat : List String) (mm : Int) :
    ∀ (images : List String) (rng : Rng),
      ∃ blocks : List (List LogRecord),
        (runImages env cat mm images rng).log = blocks.flatten ∧
        blocks.length = images.length ∧
        ∀ p ∈ images.zip blocks, blockSpec cat mm p.1 p.2 := by
  intro images
  induction images with
  | nil => intro rng; exact ⟨[], by simp [runImages], by simp, by simp⟩
  | cons g gs ih =>
    intro rng
    obtain ⟨blocks, hlog, hlen, hspec⟩ := ih (processImage env cat mm g rng).rng
    refine ⟨(processImage env cat mm g rng).recs :: blocks, ?_, ?_, ?_⟩
    · simp [runImages, hlog]
    · simp [hlen]
    · intro p hp
      rcases List.mem_cons.1 hp with rfl | hmem
      · exact processImage_blockSpec env cat mm g rng
      · exact hspec p hmem

lemma runImages_files {Img Rng : Type} (env : Env Img Rng) (cat : List String) (mm : Int) :
    ∀ (images : List String) (rng : Rng),
      ∀ r ∈ (runImages env cat mm images rng).log, LogRecord.file r ∈ images := by
  intro images
  induction images with
  | nil => intro rng r hr; simp [runImages] at hr
  | cons g gs ih =>
    intro rng r hr
    simp only [runImages] at hr
    rcases List.mem_append.1 hr with h | h
    · rw [processImage_files env cat mm g rng r h]
      exact List.mem_cons_self g gs
    · exact List.mem_cons_of_mem g (ih _ r h)

lemma runImages_locate {Img Rng : Type} (env : Env Img Rng) (cat : List String) (mm : Int) :
    ∀ (images : List String) (rng : Rng) (f : String), images.Nodup →
      ∃ pre mid post,
        (runImages env cat mm images rng).log = pre ++ mid ++ post ∧
        (∀ r ∈ pre, LogRecord.file r ≠ f) ∧
        (∀ r ∈ post, LogRecord.file r ≠ f) ∧
        blockSpec cat mm f mid := by
  intro images
  induction images with
  | nil =>
    intro rng f _
    exact ⟨[], [], [], by simp [runImages], by simp, by simp, 0, [], by simp, Or.inl rfl⟩
  | cons g gs ih =>
    intro rng f hnd
    have hg : g ∉ gs := (List.nodup_cons.1 hnd).1
    have hgs : gs.Nodup := (List.nodup_cons.1 hnd).2
    by_cases hf : g = f
    · subst hf
      refine ⟨[], (processImage env cat mm g rng).recs,
        (runImages env cat mm gs (processImage env cat mm g rng).rng).log,
        by simp [runImages], by simp, ?_, processImage_blockSpec env cat mm g rng⟩
      intro r hr hrf
      exact hg (hrf ▸ runImages_files env cat mm gs _ r hr)
    · obtain ⟨pre, mid, post, hlog, hpre, hpost, hspec⟩ :=
        ih (processImage env cat mm g rng).rng f hgs
      refine ⟨(processImage env cat mm g rng).recs ++ pre, mid, post, ?_, ?_, hpost, hspec⟩
      · simp [runImages, hlog]
      · intro r hr
        rcases List.mem_append.1 hr with h | h
        · rw [processImage_files env cat mm g rng r h]
          exact hf
        · exact hpre r h

lemma runImages_length_bounds {Img Rng : Type} (env : Env Img Rng) {cat : List String}
    {mm : Int} (hc : cat ≠ []) (hm : 1 ≤ mm) :
    ∀ (images : List String) (rng : Rng),
      images.length ≤ (runImages env cat mm images rng).log.length ∧
      ((runImages env cat mm images rng).log.filter LogRecord.isFailureRec).length ≤
        images.length := by
  intro images
  induction images with
  | nil => intro rng; simp [runImages]
  | cons g gs ih =>
    intro rng
    obtain ⟨ih1, ih2⟩ := ih (processImage env cat mm g rng).rng
    have h1 : 1 ≤ (processImage env cat mm g rng).recs.length :=
      List.length_pos.2 (processImage_recs_ne_nil env hc hm g rng)
    have h2 := blockSpec_fail_count (processImage_blockSpec env cat mm g rng)
    constructor
    · simp only [runImages, List.length_append, List.length_cons]
      omega
    · simp only [runImages, List.filter_append, List.length_append, List.length_cons]
      omega

/-! ## Auxiliary classification lemmas -/

lemma image_event_kinds (e : Event) (h : e.isImageEvent = true) :
    e.isDump = false ∧ e.isSeed = false ∧ e.isCreateLog = false ∧ e.isLogWrite = false := by
  cases e <;>
    simp_all [Event.isImageEvent, Event.isDump, Event.isSeed, Event.isCreateLog, Event.isLogWrite]

lemma runImages_filter_nonimage {Img Rng : Type} (env : Env Img Rng) (cat : List String)
    (mm : Int) (images : List String) (rng : Rng) (p : Event → Bool)
    (hp : ∀ e, e.isImageEvent = true → p e = false) :
    (runImages env cat mm images rng).events.filter p = [] := by
  apply List.filter_eq_nil_iff.2
  intro e he
  simp [hp e (runImages_evs_image env cat mm images rng e he)]

lemma magnitudes_of_nonpos {mm : Int} (h : mm < 1) : magnitudes mm = [] := by
  have h0 : mm.toNat = 0 := by omega
  simp [magnitudes, h0]

lemma unitsFor_nil {cat : List String} {mm : Int} (h : mm < 1 ∨ cat = []) :
    unitsFor cat mm = [] := by
  rcases h with h | rfl
  · simp [unitsFor, magnitudes_of_nonpos h]
  · rfl

lemma blockSpec_filterMap {cat : List String} {mm : Int} {f : String} {b : List LogRecord}
    (h : blockSpec cat mm f b) :
    ∃ k, b.filterMap successKey = ((unitsFor cat mm).take k).map (fun u => (f, u.1, u.2)) := by
  obtain ⟨k, tail, rfl, htail⟩ := h
  refine ⟨k, ?_⟩
  rw [List.filterMap_append]
  have h1 : (((unitsFor cat mm).take k).map (succFor f)).filterMap successKey
      = ((unitsFor cat mm).take k).map (fun u => (f, u.1, u.2)) := by
    induction ((unitsFor cat mm).take k) with
    | nil => rfl
    | cons u l ih => simp [succFor, successKey, ih]
  have h2 : tail.filterMap successKey = [] := by
    rcases htail with rfl | ⟨e, rfl⟩ <;> simp [successKey]
  rw [h1, h2, List.append_nil]

lemma runImages_success_order {Img Rng : Type} (env : Env Img Rng) (cat : List String)
    (mm : Int) :
    ∀ (images : List String) (rng : Rng),
      ((runImages env cat mm images rng).log.filterMap successKey).Sublist
        (allUnits images cat mm) := by
  intro images
  induction images with
  | nil => intro rng; simp [runImages, allUnits]
  | cons g gs ih =>
    intro rng
    have hall : allUnits (g :: gs) cat mm
        = (unitsFor cat mm).map (fun u => (g, u.1, u.2)) ++ allUnits gs cat mm := by
      simp [allUnits]
    obtain ⟨k, hk⟩ := blockSpec_filterMap (processImage_blockSpec env cat mm g rng)
    rw [hall]
    simp only [runImages, List.filterMap_append]
    exact List.Sublist.append (hk ▸ List.Sublist.map _ (List.take_sublist k _)) (ih _)

lemma magnitudes_chain (mm : Int) : (magnitudes mm).Chain' (· < ·) := by
  apply List.Pairwise.chain'
  rw [magnitudes, List.pairwise_map]
  exact (List.pairwise_lt_range mm.toNat).imp (fun h => by omega)

lemma magnitudes_mem {mm m : Int} (h : m ∈ magnitudes mm) : 1 ≤ m ∧ m ≤ mm := by
  rw [magnitudes] at h
  obtain ⟨i, hi, rfl⟩ := List.mem_map.1 h
  rw [List.mem_range] at hi
  omega

lemma run_events_shape {Img Rng : Type} (env : Env Img Rng) (s : Int) (rde le : Bool)
    (listing : List String) (mm : Int) :
    (run env s rde le listing mm).events =
      (Event.seedRng s :: ((if rde then [] else [Event.mkResultDir])
        ++ (if le then [] else [Event.createEmptyLog])
        ++ (runImages env augmentation_functions mm (pngFiles listing) (env.seedRng s)).events))
      ++ [Event.dumpLog (run env s rde le listing mm).log] := by
  simp [run]

/-! ## Claims -/

/-- Claim C1, counterexample.  The claim states that the total number of
LogRecords equals the number of source images, one record per image.  On a
run over one image with the non-empty built-in catalog, `max_mag = 1`, and
every external call succeeding, the log has 27 records (one per successful
work unit, l.85-92 of the script), not 1. -/
theorem c1_counterexample :
    ¬ ((run env0 0 true true ["a.png"] 1).log.length = (pngFiles ["a.png"]).length) := by
  decide

/-- Claim C1, amended.  Each image contributes one success record per
completed work unit plus exactly one failure record if it failed, so with
the non-empty built-in catalog and `max_mag ≥ 1` every image contributes at
least one record: the log has at least as many records as there are images,
and at most one failure record per image. -/
theorem c1_record_counts {Img Rng : Type} (env : Env Img Rng) (s : Int) (rde le : Bool)
    (listing : List String) (mm : Int) (hm : 1 ≤ mm) (_hne : pngFiles listing ≠ []) :
    (pngFiles listing).length ≤ (run env s rde le listing mm).log.length ∧
    ((run env s rde le listing mm).log.filter LogRecord.isFailureRec).length ≤
      (pngFiles listing).length := by
  have h := runImages_length_bounds env
    (by simp [augmentation_functions] : augmentation_functions ≠ []) hm
    (pngFiles listing) (env.seedRng s)
  simpa [run] using h

/-- Witness for `c1_record_counts` at a concrete input. -/
theorem c1_record_counts_witness :
    (pngFiles ["a.png"]).length ≤ (run env0 0 true true ["a.png"] 1).log.length ∧
    ((run env0 0 true true ["a.png"] 1).log.filter LogRecord.isFailureRec).length ≤
      (pngFiles ["a.png"]).length :=
  c1_record_counts env0 0 true true ["a.png"] 1 (by decide) (by decide)

lemma map_succFor_success (f : String) (l : List (String × Int)) :
    ∀ r ∈ l.map (succFor f), LogRecord.isSuccessRec r = true := by
  intro r hr
  obtain ⟨u, _, rfl⟩ := List.mem_map.1 hr
  rfl

lemma processImage_recs_eq {Img Rng : Type} (env : Env Img Rng) (cat : List String)
    (mm : Int) (f : String) (rng : Rng) :
    ∃ succs, (∀ r ∈ succs, LogRecord.isSuccessRec r = true) ∧
      (processImage env cat mm f rng).recs =
        succs ++ (match imageErr env cat mm f rng with
                  | none => []
                  | some e => [LogRecord.failure f e]) := by
  cases hopen : env.openResize f with
  | error e =>
    refine ⟨[], by simp, ?_⟩
    simp [processImage, imageErr, hopen]
  | ok img =>
    obtain ⟨k, _, hrecs, _⟩ := processUnits_recs_spec env f img (unitsFor cat mm) rng
    cases herr : (processUnits env f img (unitsFor cat mm) rng).err with
    | none =>
      refine ⟨((unitsFor cat mm).take k).map (succFor f), map_succFor_success f _, ?_⟩
      simp [processImage, imageErr, hopen, herr, hrecs]
    | some e =>
      refine ⟨((unitsFor cat mm).take k).map (succFor f), map_succFor_success f _, ?_⟩
      simp [processImage, imageErr, hopen, herr, hrecs]

/-- Claim C2.  The run log decomposes into one block per png file, in
order; each block consists of the success records already appended for that
image followed by at most one failure record (exactly one when the image
failed), so an exception stops the image's remaining work units, rolls back
nothing, appends a single failure record, and the batch continues with the
next image — every image gets its block.  The final conjunct makes the
failure accounting exact: an image's records are its kept success records
followed by exactly one failure record when an exception occurred (carrying
that exception's message) and by nothing otherwise. -/
theorem c2_image_fault_isolation {Img Rng : Type} (env : Env Img Rng) (s : Int)
    (rde le : Bool) (listing : List String) (mm : Int) :
    (∃ blocks : List (List LogRecord),
      (run env s rde le listing mm).log = blocks.flatten ∧
      blocks.length = (pngFiles listing).length ∧
      ∀ p ∈ (pngFiles listing).zip blocks, blockSpec augmentation_functions mm p.1 p.2) ∧
    ∀ (f : String) (rng : Rng),
      ∃ succs, (∀ r ∈ succs, LogRecord.isSuccessRec r = true) ∧
        (processImage env augmentation_functions mm f rng).recs =
          succs ++ (match imageErr env augmentation_functions mm f rng with
                    | none => []
                    | some e => [LogRecord.failure f e]) := by
  constructor
  · have h := runImages_blocks env augmentation_functions mm (pngFiles listing) (env.seedRng s)
    simpa [run] using h
  · exact fun f rng => processImage_recs_eq env augmentation_functions mm f rng

/-- Witness for `c2_image_fault_isolation` at a concrete input. -/
theorem c2_image_fault_isolation_witness :
    (∃ blocks : List (List LogRecord),
      (run env0 0 true true ["a.png"] 1).log = blocks.flatten ∧
      blocks.length = (pngFiles ["a.png"]).length ∧
      ∀ p ∈ (pngFiles ["a.png"]).zip blocks, blockSpec augmentation_functions 1 p.1 p.2) ∧
    ∀ (f : String) (rng : Int),
      ∃ succs, (∀ r ∈ succs, LogRecord.isSuccessRec r = true) ∧
        (processImage env0 augmentation_functions 1 f rng).recs =
          succs ++ (match imageErr env0 augmentation_functions 1 f rng with
                    | none => []
                    | some e => [LogRecord.failure f e]) :=
  c2_image_fault_isolation env0 0 true true ["a.png"] 1

/-- Claim C3.  The success records appear in the log as an order-preserving
subsequence of the full cross product in its fixed nesting order — images in
discovered order outermost, catalog operators in declaration order, then
magnitudes — and the magnitude sequence is strictly ascending, running
exactly over 1..max_mag. -/
theorem c3_nesting_order {Img Rng : Type} (env : Env Img Rng) (s : Int) (rde le : Bool)
    (listing : List String) (mm : Int) :
    ((run env s rde le listing mm).log.filterMap successKey).Sublist
      (allUnits (pngFiles listing) augmentation_functions mm) ∧
    (magnitudes mm).Chain' (· < ·) ∧
    (∀ m ∈ magnitudes mm, 1 ≤ m ∧ m ≤ mm) := by
  refine ⟨?_, magnitudes_chain mm, fun m hm => magnitudes_mem hm⟩
  have h := runImages_success_order env augmentation_functions mm (pngFiles listing)
    (env.seedRng s)
  simpa [run] using h

/-- Witness for `c3_nesting_order` at a concrete input. -/
theorem c3_nesting_order_witness :
    ((run env0 0 true true ["a.png"] 1).log.filterMap successKey).Sublist
      (allUnits (pngFiles ["a.png"]) augmentation_functions 1) ∧
    (magnitudes 1).Chain' (· < ·) ∧
    (∀ m ∈ magnitudes 1, 1 ≤ m ∧ m ≤ 1) :=
  c3_nesting_order env0 0 true true ["a.png"] 1

/-- Claim C4, counterexample.  Output names embed the `os.path.splitext`
base of the source name, and two distinct processable source names can
share a base: `".png"` and `".png.png"` both end in `".png"` yet both have
base `".png"`, so their work units with the same operator and magnitude
collide on the output name, and a run over both sources writes the same
artifact name twice. -/
theorem c4_counterexample :
    outputFileName ".png" "curve" 1 = outputFileName ".png.png" "curve" 1 ∧
    (".png" : String) ≠ ".png.png" ∧
    endsWithPng ".png" = true ∧ endsWithPng ".png.png" = true ∧
    ¬ (((run env0 0 true true [".png", ".png.png"] 1).arts.map Prod.fst).Nodup) := by
  exact ⟨by decide, by decide, by decide, by decide, by decide⟩

/-- Claim C4, amended.  The output name is
`\x7bsource_base_name\x7d_\x7boperator_name\x7d_\x7bmagnitude\x7d.png`, and the mapping from
work unit to output name is injective provided distinct source files have
distinct base names (which `".png"`/`".png.png"` style listings violate):
catalog operator names contain no underscore and the magnitude is rendered
in underscore-free decimal, so the name decodes uniquely from the right. -/
theorem c4_output_name_injective (f1 f2 o1 o2 : String) (m1 m2 : Int)
    (ho1 : o1 ∈ augmentation_functions) (ho2 : o2 ∈ augmentation_functions)
    (hm1 : 1 ≤ m1) (hm2 : 1 ≤ m2)
    (hbase : f1 ≠ f2 → splitextBase f1 ≠ splitextBase f2)
    (h : outputFileName f1 o1 m1 = outputFileName f2 o2 m2) :
    f1 = f2 ∧ o1 = o2 ∧ m1 = m2 := by
  obtain ⟨hb, ho, hm⟩ := outputFileName_inj
    (augmentation_functions_no_underscore o1 ho1)
    (augmentation_functions_no_underscore o2 ho2) hm1 hm2 h
  by_cases hf : f1 = f2
  · exact ⟨hf, ho, hm⟩
  · exact absurd hb (hbase hf)

/-- Witness for `c4_output_name_injective` at a concrete input. -/
theorem c4_output_name_injective_witness :
    ("a.png" : String) = "a.png" ∧ ("curve" : String) = "curve" ∧ (1 : Int) = 1 :=
  c4_output_name_injective "a.png" "a.png" "curve" "curve" 1 1 (by decide) (by decide)
    (by decide) (by decide) (fun hne => absurd rfl hne) rfl

/-- Claim C5.  The serialized run log is persisted exactly once per run:
the only `dumpLog` event in the trace is the final event, and it carries
the complete accumulated log — no dump of the run log happens during image
processing.  (The initial creation of an empty `process_log.json` when the
file is absent is a distinct action, treated in claim C10.) -/
theorem c5_single_final_persist {Img Rng : Type} (env : Env Img Rng) (s : Int)
    (rde le : Bool) (listing : List String) (mm : Int) :
    (run env s rde le listing mm).events.getLast?
      = some (Event.dumpLog (run env s rde le listing mm).log) ∧
    (run env s rde le listing mm).events.filter Event.isDump
      = [Event.dumpLog (run env s rde le listing mm).log] := by
  have hbody : (runImages env augmentation_functions mm (pngFiles listing)
      (env.seedRng s)).events.filter Event.isDump = [] :=
    runImages_filter_nonimage env _ mm _ _ Event.isDump
      (fun e h => (image_event_kinds e h).1)
  constructor
  · rw [run_events_shape env s rde le listing mm]
    exact List.getLast?_concat _
  · rw [run_events_shape env s rde le listing mm]
    cases rde <;> cases le <;>
      simp [List.filter_append, List.filter_cons, Event.isDump, hbody]

/-- Claim C6.  Runs are reproducible: with the same environment (same image
contents, same operator behaviour), the same seed, the same ordered listing
and the same max_mag, two runs produce the same log and the same artifacts
— even with different pre-existing directory or log-file state — and the
random generator is seeded exactly once, as the very first action, before
any operator invocation. -/
theorem c6_determinism {Img Rng : Type} (env : Env Img Rng) (s1 s2 : Int)
    (rde1 le1 rde2 le2 : Bool) (l1 l2 : List String) (mm1 mm2 : Int)
    (hs : s1 = s2) (hl : l1 = l2) (hmm : mm1 = mm2) :
    ((run env s1 rde1 le1 l1 mm1).log = (run env s2 rde2 le2 l2 mm2).log ∧
     (run env s1 rde1 le1 l1 mm1).arts = (run env s2 rde2 le2 l2 mm2).arts) ∧
    ∃ tl, (run env s1 rde1 le1 l1 mm1).events = Event.seedRng s1 :: tl ∧
      tl.filter Event.isSeed = [] := by
  subst hs
  subst hl
  subst hmm
  have hbody : (runImages env augmentation_functions mm1 (pngFiles l1)
      (env.seedRng s1)).events.filter Event.isSeed = [] :=
    runImages_filter_nonimage env _ mm1 _ _ Event.isSeed
      (fun e h => (image_event_kinds e h).2.1)
  refine ⟨⟨rfl, rfl⟩, ⟨(if rde1 then [] else [Event.mkResultDir])
      ++ (if le1 then [] else [Event.createEmptyLog])
      ++ (runImages env augmentation_functions mm1 (pngFiles l1) (env.seedRng s1)).events
      ++ [Event.dumpLog (run env s1 rde1 le1 l1 mm1).log], ?_, ?_⟩⟩
  · rw [run_events_shape env s1 rde1 le1 l1 mm1]
    simp
  · cases rde1 <;> cases le1 <;>
      simp [List.filter_append, Event.isSeed, hbody]

/-- Witness for `c6_determinism` at a concrete input. -/
theorem c6_determinism_witness :
    ((run env0 3 true true ["a.png"] 2).log = (run env0 3 false false ["a.png"] 2).log ∧
     (run env0 3 true true ["a.png"] 2).arts = (run env0 3 false false ["a.png"] 2).arts) ∧
    ∃ tl, (run env0 3 true true ["a.png"] 2).events = Event.seedRng 3 :: tl ∧
      tl.filter Event.isSeed = [] :=
  c6_determinism env0 3 3 true true false false ["a.png"] ["a.png"] 2 2 rfl rfl rfl

/-- Claim C7, counterexample.  The claim states each catalog operator is
constructed exactly once, at catalog build time.  In the script the catalog
stores classes and `apply_augmentation` calls `func()` at every work unit
(l.25): over a two-image run with `max_mag = 1`, the operator `"curve"` is
constructed twice, not once. -/
theorem c7_counterexample :
    ((run env0 0 true true ["a.png", "b.png"] 1).events.filter
      (Event.isConstructOf "curve")).length = 2 ∧ (2 : Nat) ≠ 1 :=
  ⟨by decide, by decide⟩

/-- Claim C7, amended.  No operator instance is built at catalog build time
or reused: a fresh instance of the operator is constructed at every single
application attempt, so over any run the number of constructions of an
operator equals the number of its invocations. -/
theorem c7_fresh_instance_per_call {Img Rng : Type} (env : Env Img Rng) (s : Int)
    (rde le : Bool) (listing : List String) (mm : Int) (o : String) :
    ((run env s rde le listing mm).events.filter (Event.isConstructOf o)).length =
    ((run env s rde le listing mm).events.filter (Event.isInvokeOf o)).length := by
  have h := runImages_construct_invoke env augmentation_functions mm o (pngFiles listing)
    (env.seedRng s)
  rw [run_events_shape env s rde le listing mm]
  cases rde <;> cases le <;>
    simp [List.filter_append, List.filter_cons, Event.isConstructOf, Event.isInvokeOf, h]

/-- Claim C8.  A run whose listing contains no png files still dumps the
log document, containing the empty record sequence, and produces no
artifacts; and `max_mag < 1` (or an empty catalog) yields zero work units
per image, so a successfully opened image contributes no records and no
artifacts — neither situation is an error. -/
theorem c8_degenerate_runs {Img Rng : Type} (env : Env Img Rng) (s : Int) (rde le : Bool)
    (listing : List String) (mm : Int) (cat : List String) (mm' : Int) (f : String)
    (rng : Rng) (img : Img) :
    (pngFiles listing = [] →
      (run env s rde le listing mm).log = [] ∧
      (run env s rde le listing mm).events.getLast? = some (Event.dumpLog []) ∧
      (run env s rde le listing mm).arts = []) ∧
    ((mm' < 1 ∨ cat = []) →
      unitsFor cat mm' = [] ∧
      (env.openResize f = Except.ok img →
        (processImage env cat mm' f rng).recs = [] ∧
        (processImage env cat mm' f rng).arts = [])) := by
  constructor
  · intro hempty
    refine ⟨?_, ?_, ?_⟩
    · simp [run, hempty, runImages]
    · rw [run_events_shape env s rde le listing mm]
      have hlog : (run env s rde le listing mm).log = [] := by
        simp [run, hempty, runImages]
      rw [hlog]
      exact List.getLast?_concat _
    · simp [run, hempty, runImages]
  · intro hdeg
    have hunits := unitsFor_nil hdeg
    refine ⟨hunits, fun hopen => ?_⟩
    constructor <;> simp [processImage, hopen, hunits, processUnits]

/-- Witness for `c8_degenerate_runs` at concrete inputs: an empty listing,
and a catalog with `max_mag = 0` on an image that opens successfully. -/
theorem c8_degenerate_runs_witness :
    ((run env0 0 true true [] 5).log = [] ∧
     (run env0 0 true true [] 5).events.getLast? = some (Event.dumpLog []) ∧
     (run env0 0 true true [] 5).arts = []) ∧
    (unitsFor ["curve"] 0 = [] ∧
     (processImage env0 ["curve"] 0 "a.png" 0).recs = [] ∧
     (processImage env0 ["curve"] 0 "a.png" 0).arts = []) := by
  obtain ⟨h1, h2⟩ := c8_degenerate_runs env0 0 true true ([] : List String) 5 ["curve"] 0
    "a.png" 0 ()
  obtain ⟨h3, h4⟩ := h2 (Or.inl (by decide))
  obtain ⟨h5, h6⟩ := h4 rfl
  exact ⟨h1 rfl, h3, h5, h6⟩

/-- Claim C9.  When the directory listing has no duplicate names, the
records of any given source file form one contiguous slice of the final
log, shaped as success records (in work-unit order) followed by at most one
failure record, which — when present — is the last record of the slice. -/
theorem c9_contiguous_blocks {Img Rng : Type} (env : Env Img Rng) (s : Int) (rde le : Bool)
    (listing : List String) (mm : Int) (hnd : listing.Nodup) (f : String) :
    ∃ pre mid post,
      (run env s rde le listing mm).log = pre ++ mid ++ post ∧
      (∀ r ∈ pre, LogRecord.file r ≠ f) ∧
      (∀ r ∈ post, LogRecord.file r ≠ f) ∧
      blockSpec augmentation_functions mm f mid := by
  have h := runImages_locate env augmentation_functions mm (pngFiles listing)
    (env.seedRng s) f (List.Nodup.filter _ hnd)
  simpa [run] using h

/-- Witness for `c9_contiguous_blocks` at a concrete input. -/
theorem c9_contiguous_blocks_witness :
    ∃ pre mid post,
      (run env0 0 true true ["a.png"] 1).log = pre ++ mid ++ post ∧
      (∀ r ∈ pre, LogRecord.file r ≠ "a.png") ∧
      (∀ r ∈ post, LogRecord.file r ≠ "a.png") ∧
      blockSpec augmentation_functions 1 "a.png" mid :=
  c9_contiguous_blocks env0 0 true true ["a.png"] 1 (by decide) "a.png"

/-- Claim C10.  When `process_log.json` does not pre-exist, the driver
creates it (the `createEmptyLog` write of an empty JSON array) right after
seeding and the optional directory creation — before any image is touched —
and never writes the log path again until the single final dump; when it
does pre-exist, the final dump is the only write to the log path. -/
theorem c10_log_file_creation {Img Rng : Type} (env : Env Img Rng) (s : Int) (rde : Bool)
    (listing : List String) (mm : Int) :
    (∃ tl, (run env s rde false listing mm).events
        = Event.seedRng s :: ((if rde then [] else [Event.mkResultDir])
            ++ Event.createEmptyLog :: tl) ∧
      tl.filter Event.isCreateLog = [] ∧
      tl.filter Event.isLogWrite = [Event.dumpLog (run env s rde false listing mm).log]) ∧
    (run env s rde true listing mm).events.filter Event.isLogWrite
      = [Event.dumpLog (run env s rde true listing mm).log] := by
  have hbody1 : (runImages env augmentation_functions mm (pngFiles listing)
      (env.seedRng s)).events.filter Event.isCreateLog = [] :=
    runImages_filter_nonimage env _ mm _ _ Event.isCreateLog
      (fun e h => (image_event_kinds e h).2.2.1)
  have hbody2 : (runImages env augmentation_functions mm (pngFiles listing)
      (env.seedRng s)).events.filter Event.isLogWrite = [] :=
    runImages_filter_nonimage env _ mm _ _ Event.isLogWrite
      (fun e h => (image_event_kinds e h).2.2.2)
  constructor
  · refine ⟨(runImages env augmentation_functions mm (pngFiles listing)
        (env.seedRng s)).events
        ++ [Event.dumpLog (run env s rde false listing mm).log], ?_, ?_, ?_⟩
    · rw [run_events_shape env s rde false listing mm]
      cases rde <;> simp
    · simp [List.filter_append, Event.isCreateLog, hbody1]
    · simp [List.filter_append, Event.isLogWrite, hbody2]
  · rw [run_events_shape env s rde true listing mm]
    cases rde <;>
      simp [List.filter_append, List.filter_cons, Event.isLogWrite, hbody2]
